import Mathlib

/-! Verification of the HoskSaid transcript ingestion and hybrid retrieval
pipeline. The TypeScript sources are shallowly embedded: text is a list of
characters, the regex-based text transforms become explicit scanners, the
store becomes an explicit state, and the orchestrator becomes a function
from an environment (outcomes of the external services) to a result plus an
ordered trace of store writes. -/

namespace HoskSaid

/-- ASCII whitespace, the regex class \s restricted to the ASCII range
(space, tab, newline, carriage return, vertical tab, form feed). -/
def isWs (c : Char) : Bool :=
  c = ' ' || c = '\t' || c = '\n' || c = '\r' || c = Char.ofNat 11 || c = Char.ofNat 12

/-- The global regex replace of \s+ by a single space: every maximal
whitespace run becomes one space (emitted at the last character of the
run). -/
def squeezeWs : List Char → List Char
  | [] => []
  | [c] => if isWs c then [' '] else [c]
  | c :: d :: rest =>
    if isWs c then
      if isWs d then squeezeWs (d :: rest) else ' ' :: squeezeWs (d :: rest)
    else c :: squeezeWs (d :: rest)

/-- JS String.prototype.trim: drop whitespace from both ends. -/
def trimWs (l : List Char) : List Char :=
  ((l.dropWhile (fun d => isWs d)).reverse.dropWhile (fun d => isWs d)).reverse

/-- text.replace(\s+ for a space).trim(), the normalization shared by the
chunker (ingest.ts splitText) and the transcript cleaner (llm.ts). -/
def collapseWs (l : List Char) : List Char := trimWs (squeezeWs l)

/-- JS String.prototype.slice(a, b) for 0 ≤ a ≤ b: the span [a, b) clamped
to the string. -/
def slice (l : List Char) (a b : Nat) : List Char := (l.take b).drop a

/-- JS String.prototype.lastIndexOf for a single character: the largest
index holding it, if any (JS returns -1 otherwise). -/
def lastIndexOf (c : Char) : List Char → Option Nat
  | [] => none
  | x :: xs =>
    match lastIndexOf c xs with
    | some i => some (i + 1)
    | none => if x = c then some 0 else none

/-- Chunking configuration of the embeddings script (ingest.ts). -/
def CHUNK_SIZE : Nat := 1000

/-- Overlap between consecutive chunks (ingest.ts). -/
def CHUNK_OVERLAP : Nat := 100

/-- The end cursor split picks for the chunk starting at start: start +
chunkSize, except that when more text remains, the last period inside the
window extended by a 50-character lookahead is used instead, provided it
lies past 80 percent of the window (boundary > chunkSize * 0.8, written
here over naturals as chunkSize * 4 < boundary * 5). The spec contract is
split(text, chunkSize, overlap); the embeddings script instantiates it at
CHUNK_SIZE and CHUNK_OVERLAP. -/
def stepEnd (chunkSize : Nat) (normalized : List Char) (start : Nat) : Nat :=
  if start + chunkSize < normalized.length then
    match lastIndexOf '.' (slice normalized start (start + chunkSize + 50)) with
    | some b =>
      if chunkSize * 4 < b * 5 then start + b + 1 else start + chunkSize
    | none => start + chunkSize
  else start + chunkSize

/-- The while loop of split, emitting the trimmed slice for each window and
advancing the cursor to end - overlap. Recursion is over an explicit fuel;
whenever the cursor strictly advances, a fuel of normalized.length is
sufficient. -/
def splitLoopF (chunkSize overlap : Nat) (normalized : List Char) :
    Nat → Nat → List (List Char)
  | 0, _ => []
  | fuel + 1, start =>
    if start < normalized.length then
      trimWs (slice normalized start (stepEnd chunkSize normalized start)) ::
        splitLoopF chunkSize overlap normalized fuel
          (stepEnd chunkSize normalized start - overlap)
    else []

/-- splitText of the embeddings script (ingest.ts), parameterized by the
spec contract split(text, chunkSize, overlap): no chunks for the empty
string, otherwise walk the whitespace-normalized text in overlapping
windows. -/
def splitTextP (chunkSize overlap : Nat) (text : List Char) : List (List Char) :=
  if text = [] then []
  else splitLoopF chunkSize overlap (collapseWs text) (collapseWs text).length 0

/-- splitText as the script runs it, at the configured constants. -/
def splitText (text : List Char) : List (List Char) :=
  splitTextP CHUNK_SIZE CHUNK_OVERLAP text

/-- The same walk as splitLoopF but emitting untrimmed slices; split's
chunks are exactly the trims of these. -/
def splitSlicesF (chunkSize overlap : Nat) (normalized : List Char) :
    Nat → Nat → List (List Char)
  | 0, _ => []
  | fuel + 1, start =>
    if start < normalized.length then
      slice normalized start (stepEnd chunkSize normalized start) ::
        splitSlicesF chunkSize overlap normalized fuel
          (stepEnd chunkSize normalized start - overlap)
    else []

/-- The untrimmed window walk over the normalized text of split. -/
def splitRawSlices (chunkSize overlap : Nat) (text : List Char) : List (List Char) :=
  if text = [] then []
  else splitSlicesF chunkSize overlap (collapseWs text) (collapseWs text).length 0

/-- Concatenating chunks with the overlap dropped from every successor, the
reconstruction the spec describes for the chunker. -/
def reconstruct (overlap : Nat) : List (List Char) → List Char
  | [] => []
  | c :: cs => c ++ (cs.map (List.drop overlap)).flatten

/-- Global replace of a literal pattern (a JS replace with a global regex of
plain characters): leftmost match first, scanning resumes after the match,
replacements are not rescanned. Recursion is over an explicit fuel; every
step consumes at least one character, so the input length is sufficient. -/
def replaceAllF (pat rep : List Char) : Nat → List Char → List Char
  | _, [] => []
  | 0, s => s
  | fuel + 1, c :: rest =>
    if pat.isPrefixOf (c :: rest) && !pat.isEmpty then
      rep ++ replaceAllF pat rep fuel ((c :: rest).drop pat.length)
    else c :: replaceAllF pat rep fuel rest

/-- Global literal replace at full fuel. -/
def replaceAll (pat rep s : List Char) : List Char := replaceAllF pat rep s.length s

/-- The HTML-entity decoding chain of cleanTranscriptText, doubly-encoded
forms first, in source order. -/
def decodeEntities (s : List Char) : List Char :=
  s
  |> replaceAll "&amp;#39;".toList [Char.ofNat 39]
  |> replaceAll "&amp;quot;".toList [Char.ofNat 34]
  |> replaceAll "&amp;amp;".toList ['&']
  |> replaceAll "&amp;lt;".toList ['<']
  |> replaceAll "&amp;gt;".toList ['>']
  |> replaceAll "&#39;".toList [Char.ofNat 39]
  |> replaceAll "&quot;".toList [Char.ofNat 34]
  |> replaceAll "&amp;".toList ['&']
  |> replaceAll "&lt;".toList ['<']
  |> replaceAll "&gt;".toList ['>']
  |> replaceAll "&nbsp;".toList [' ']

/-- The regex word-character class \w: ASCII letters, digits, underscore. -/
def isWordChar (c : Char) : Bool := c.isAlpha || c.isDigit || c = '_'

/-- The optional punctuation and whitespace tail of the filler patterns,
regex [,.]? followed by \s* (both greedy). Returns the number of characters
consumed. -/
def fillerTail (s : List Char) : Nat :=
  match s with
  | c :: rest =>
    if c = ',' || c = '.' then 1 + (rest.takeWhile (fun d => isWs d)).length
    else (s.takeWhile (fun d => isWs d)).length
  | [] => 0

/-- Matcher for the regex \b(um|uh|er|ah)\b[,.]?\s* (case-insensitive) at the
head of s, where prevW says whether the preceding character of the original
string is a word character (for the left \b). Returns the match length. -/
def matchFillerWord (prevW : Bool) (s : List Char) : Option Nat :=
  match s with
  | c1 :: c2 :: rest =>
    if prevW then none
    else if (c1.toLower = 'u' && (c2.toLower = 'm' || c2.toLower = 'h')) ||
            (c1.toLower = 'e' && c2.toLower = 'r') ||
            (c1.toLower = 'a' && c2.toLower = 'h') then
      match rest with
      | d :: _ => if isWordChar d then none else some (2 + fillerTail rest)
      | [] => some 2
    else none
  | _ => none

/-- Matcher for the regex \byou know[,.]?\s* (case-insensitive; the space is
a literal space and there is no trailing \b after know). -/
def matchYouKnow (prevW : Bool) (s : List Char) : Option Nat :=
  if prevW then none
  else match s with
  | y :: o :: u :: sp :: k :: n :: o2 :: w :: rest =>
    if y.toLower = 'y' && o.toLower = 'o' && u.toLower = 'u' && sp = ' ' &&
       k.toLower = 'k' && n.toLower = 'n' && o2.toLower = 'o' && w.toLower = 'w' then
      some (8 + fillerTail rest)
    else none
  | _ => none

/-- The word alternatives of the lookahead in the third filler regex,
lowercased. -/
def lookaheadWords : List (List Char) :=
  ["um".toList, "uh".toList, "i".toList, "we".toList, "they".toList, "he".toList,
   "she".toList, "it".toList, "you".toList, "so".toList, "and".toList, "but".toList,
   "the".toList, "a".toList, "an".toList]

/-- The lookahead (?=\b(um|uh|I|we|they|he|she|it|you|so|and|but|the|a|an)\b)
evaluated right after a whitespace run: it holds exactly when the maximal
word-character run starting here is one of the alternatives
(case-insensitively). -/
def likeLookahead (s : List Char) : Bool :=
  lookaheadWords.contains ((s.takeWhile (fun d => isWordChar d)).map Char.toLower)

/-- Matcher for the regex
\blike\b[,.]?\s+(?=\b(um|uh|I|we|they|he|she|it|you|so|and|but|the|a|an)\b)
(case-insensitive): the lookahead consumes nothing. -/
def matchLike (prevW : Bool) (s : List Char) : Option Nat :=
  if prevW then none
  else match s with
  | l :: i :: k :: e :: rest =>
    if l.toLower = 'l' && i.toLower = 'i' && k.toLower = 'k' && e.toLower = 'e' then
      match rest with
      | d :: _ =>
        if isWordChar d then none
        else
          let opt : Nat := if d = ',' || d = '.' then 1 else 0
          let after := rest.drop opt
          let wsRun := after.takeWhile (fun c => isWs c)
          if wsRun = [] then none
          else if likeLookahead (after.drop wsRun.length) then
            some (4 + opt + wsRun.length)
          else none
      | [] => none
    else none
  | _ => none

/-- Whether the character just before the scan position is a word character,
after consuming n + 1 characters of s (used to evaluate \b at the resumed
position of a global replace). -/
def prevAfter (s : List Char) (n : Nat) (dflt : Bool) : Bool :=
  match s.get? n with
  | some d => isWordChar d
  | none => dflt

/-- Driver of one global regex replace with empty replacement: scan left to
right carrying word-character context for \b; on a match drop it and resume
after it (a zero-length match keeps the character and advances by one,
matching the JS replace semantics). Recursion is over an explicit fuel;
every step consumes at least one character, so the input length is
sufficient. -/
def runPassF (matcher : Bool → List Char → Option Nat) :
    Nat → Bool → List Char → List Char
  | _, _, [] => []
  | 0, _, s => s
  | fuel + 1, prevW, c :: rest =>
    match matcher prevW (c :: rest) with
    | some (n + 1) =>
      runPassF matcher fuel (prevAfter (c :: rest) n prevW) ((c :: rest).drop (n + 1))
    | _ => c :: runPassF matcher fuel (isWordChar c) rest

/-- One global filler replace at full fuel, from the start-of-string
context. -/
def runPass (matcher : Bool → List Char → Option Nat) (s : List Char) : List Char :=
  runPassF matcher s.length false s

/-- The removeFillers block of cleanTranscriptText: the three global
replaces in source order. -/
def removeFillerWords (s : List Char) : List Char :=
  runPass matchLike (runPass matchYouKnow (runPass matchFillerWord s))

/-- Sentence terminators of the paragraphing regex: period, bang, question
mark. -/
def isTerm (c : Char) : Bool := c = '.' || c = '!' || c = '?'

/-- All matches of the regex [^.!?]+[.!?]+\s* in s, in order (the JS match
with the global flag). Text between or after matches is not represented.
Recursion is over an explicit fuel; every step consumes at least one
character, so the input length is sufficient. -/
def splitSentencesF : Nat → List Char → List (List Char)
  | _, [] => []
  | 0, _ => []
  | fuel + 1, c :: rest =>
    if isTerm c then splitSentencesF fuel rest
    else
      let body := (c :: rest).takeWhile (fun d => !isTerm d)
      let after1 := (c :: rest).dropWhile (fun d => !isTerm d)
      let terms := after1.takeWhile (fun d => isTerm d)
      if terms.isEmpty then []
      else
        let after2 := after1.dropWhile (fun d => isTerm d)
        let wsp := after2.takeWhile (fun d => isWs d)
        (body ++ terms ++ wsp) :: splitSentencesF fuel (after2.dropWhile (fun d => isWs d))

/-- Sentence matching at full fuel. -/
def splitSentences (s : List Char) : List (List Char) := splitSentencesF s.length s

/-- Group a list into consecutive runs of n (the JS loop slicing the
sentence array by sentencesPerParagraph); n = 0 would not advance in the
source and is unreachable behind the 0 < sentencesPerParagraph guard.
Recursion is over an explicit fuel; the list length is sufficient. -/
def chunksOfF (n : Nat) : Nat → List α → List (List α)
  | _, [] => []
  | 0, _ => []
  | fuel + 1, x :: xs =>
    if n = 0 then [] else (x :: xs).take n :: chunksOfF n fuel ((x :: xs).drop n)

/-- Grouping at full fuel. -/
def chunksOf (n : Nat) (l : List α) : List (List α) := chunksOfF n l.length l

/-- The paragraph-building block of cleanTranscriptText: split into
sentences (falling back to the whole text when the regex has no match),
group by sentencesPerParagraph, trim and keep nonempty groups, and join the
groups with blank lines. -/
def paragraphStep (spp : Nat) (s : List Char) : List Char :=
  let sentences := match splitSentences s with
    | [] => [s]
    | l => l
  let paras :=
    ((chunksOf spp sentences).map (fun g => trimWs g.flatten)).filter
      (fun p => !p.isEmpty)
  List.intercalate ['\n', '\n'] paras

/-- The options record of cleanTranscriptText with its source defaults. -/
structure CleanOptions where
  removeFillers : Bool := true
  addParagraphs : Bool := true
  sentencesPerParagraph : Nat := 4

/-- cleanTranscriptText (lib/llm.ts related transcript module): decode HTML
entities, optionally remove verbal fillers, collapse whitespace, optionally
regroup sentences into paragraphs. -/
def cleanTranscriptText (text : List Char) (opts : CleanOptions) : List Char :=
  let c1 := decodeEntities text
  let c2 := if opts.removeFillers then removeFillerWords c1 else c1
  let c3 := collapseWs c2
  if opts.addParagraphs && 0 < opts.sentencesPerParagraph then
    paragraphStep opts.sentencesPerParagraph c3
  else c3

/-- Invariant of whitespace-collapsed text: every whitespace character is a
plain space and no two whitespace characters are adjacent. -/
def WsNormal (l : List Char) : Prop :=
  (∀ c ∈ l, isWs c = true → c = ' ') ∧
    List.Chain' (fun a b => ¬(isWs a = true ∧ isWs b = true)) l

theorem squeezeWs_head? (l : List Char) :
    (squeezeWs l).head? = l.head?.map (fun d => if isWs d then ' ' else d) := by
  induction l with
  | nil => simp [squeezeWs]
  | cons c rest ih =>
    cases rest with
    | nil =>
      by_cases hws : isWs c <;> simp [squeezeWs, hws]
    | cons d t =>
      by_cases hws : isWs c
      · by_cases hd : isWs d
        · rw [squeezeWs, if_pos hws, if_pos hd, ih]
          simp [hd, hws]
        · rw [squeezeWs, if_pos hws, if_neg hd]
          simp [hws]
      · rw [squeezeWs, if_neg hws]
        simp [hws]

theorem squeezeWs_wsNormal (l : List Char) : WsNormal (squeezeWs l) := by
  induction l with
  | nil => exact ⟨by simp [squeezeWs], by simp [squeezeWs]⟩
  | cons c rest ih =>
    obtain ⟨ih1, ih2⟩ := ih
    cases rest with
    | nil =>
      by_cases hws : isWs c
      · rw [squeezeWs, if_pos hws]
        refine ⟨?_, ?_⟩
        · intro x hx _
          simp at hx
          simp [hx]
        · simp
      · rw [squeezeWs, if_neg hws]
        refine ⟨?_, ?_⟩
        · intro x hx hxw
          simp at hx
          subst hx
          exact absurd hxw (by simp [hws])
        · simp
    | cons d t =>
      by_cases hws : isWs c
      · by_cases hd : isWs d
        · rw [squeezeWs, if_pos hws, if_pos hd]
          exact ⟨ih1, ih2⟩
        · rw [squeezeWs, if_pos hws, if_neg hd]
          refine ⟨?_, ?_⟩
          · intro x hx hxw
            rcases List.mem_cons.mp hx with h | h
            · exact h
            · exact ih1 x h hxw
          · rw [List.chain'_cons']
            refine ⟨?_, ih2⟩
            intro y hy
            rw [squeezeWs_head?] at hy
            simp [hd] at hy
            subst hy
            simp [hd]
      · rw [squeezeWs, if_neg hws]
        refine ⟨?_, ?_⟩
        · intro x hx hxw
          rcases List.mem_cons.mp hx with h | h
          · subst h; exact absurd hxw (by simp [hws])
          · exact ih1 x h hxw
        · rw [List.chain'_cons']
          refine ⟨?_, ih2⟩
          intro y _
          simp only [Bool.not_eq_true] at hws
          simp [hws]

theorem squeezeWs_eq_self {l : List Char} (h : WsNormal l) : squeezeWs l = l := by
  induction l with
  | nil => simp [squeezeWs]
  | cons c rest ih =>
    obtain ⟨h1, h2⟩ := h
    have hrest : WsNormal rest :=
      ⟨fun d hd => h1 d (List.mem_cons_of_mem _ hd), (List.chain'_cons'.mp h2).2⟩
    by_cases hws : isWs c
    · have hc : c = ' ' := h1 c (List.mem_cons_self _ _) hws
      cases rest with
      | nil => simp [squeezeWs, hws, hc]
      | cons d t =>
        have hd : ¬(isWs d = true) := by
          have := (List.chain'_cons'.mp h2).1 d (by simp)
          intro hdw
          exact this ⟨hws, hdw⟩
        rw [squeezeWs, if_pos hws, if_neg hd, ih hrest, hc]
    · cases rest with
      | nil => simp [squeezeWs, hws]
      | cons d t => rw [squeezeWs, if_neg hws, ih hrest]

theorem trimWs_prefix_dropWhile (l : List Char) :
    trimWs l <+: l.dropWhile (fun d => isWs d) := by
  unfold trimWs
  have h : ((l.dropWhile (fun d => isWs d)).reverse.dropWhile (fun d => isWs d)) <:+
      (l.dropWhile (fun d => isWs d)).reverse := List.dropWhile_suffix _
  have h2 := List.reverse_prefix.mpr h
  simpa using h2

theorem trimWs_isInfixOf (l : List Char) : trimWs l <:+: l := by
  obtain ⟨r, hr⟩ := trimWs_prefix_dropWhile l
  obtain ⟨p, hp⟩ : l.dropWhile (fun d => isWs d) <:+ l := List.dropWhile_suffix _
  refine ⟨p, r, ?_⟩
  rw [← hr] at hp
  rw [List.append_assoc]
  exact hp

theorem WsNormal.mono {l l' : List Char} (h : WsNormal l) (hi : l' <:+: l) :
    WsNormal l' := by
  refine ⟨fun c hc hw => h.1 c (hi.sublist.subset hc) hw, ?_⟩
  obtain ⟨s, t, hst⟩ := hi
  have hsuf : List.Chain' (fun a b => ¬(isWs a = true ∧ isWs b = true)) (l' ++ t) :=
    h.2.suffix ⟨s, by rw [← hst, List.append_assoc]⟩
  exact hsuf.prefix ⟨t, rfl⟩

theorem trimWs_head?_not_ws (l : List Char) {y : Char}
    (hy : (trimWs l).head? = some y) : isWs y = false := by
  have hpre := trimWs_prefix_dropWhile l
  obtain ⟨r, hr⟩ := hpre
  have hhead : (l.dropWhile (fun d => isWs d)).head? = some y := by
    rw [← hr]
    cases ht : trimWs l with
    | nil => rw [ht] at hy; simp at hy
    | cons a t =>
      rw [ht] at hy
      simp at hy
      simp [hy]
  have := List.head?_dropWhile_not (fun d => isWs d) l
  rw [hhead] at this
  simpa using this

theorem trimWs_getLast?_not_ws (l : List Char) {y : Char}
    (hy : (trimWs l).getLast? = some y) : isWs y = false := by
  unfold trimWs at hy
  rw [List.getLast?_reverse] at hy
  have := List.head?_dropWhile_not (fun d => isWs d)
    ((l.dropWhile (fun d => isWs d)).reverse)
  rw [hy] at this
  simpa using this

theorem dropWhile_eq_self_of_head {p : Char → Bool} {l : List Char}
    (h : ∀ y, l.head? = some y → p y = false) : l.dropWhile p = l := by
  cases l with
  | nil => rfl
  | cons c rest =>
    have := h c rfl
    simp [List.dropWhile_cons, this]

theorem trimWs_eq_self {l : List Char}
    (hh : ∀ y, l.head? = some y → isWs y = false)
    (hl : ∀ y, l.getLast? = some y → isWs y = false) : trimWs l = l := by
  unfold trimWs
  rw [dropWhile_eq_self_of_head hh]
  rw [dropWhile_eq_self_of_head (by
    intro y hy
    rw [List.head?_reverse] at hy
    exact hl y hy)]
  exact List.reverse_reverse l

theorem collapseWs_idem (l : List Char) : collapseWs (collapseWs l) = collapseWs l := by
  have hnorm : WsNormal (collapseWs l) :=
    (squeezeWs_wsNormal l).mono (trimWs_isInfixOf (squeezeWs l))
  show trimWs (squeezeWs (collapseWs l)) = collapseWs l
  rw [squeezeWs_eq_self hnorm]
  exact trimWs_eq_self
    (fun y hy => trimWs_head?_not_ws (squeezeWs l) hy)
    (fun y hy => trimWs_getLast?_not_ws (squeezeWs l) hy)

/-- C2 counterexample: the normalizer is not idempotent as claimed. One pass
over the text "you you know know" removes the inner occurrence of the
filler phrase, producing "you know", which a second pass removes entirely:
normalize (normalize T) differs from normalize T at this input with the
default options. -/
theorem cleanTranscriptText_not_idempotent :
    cleanTranscriptText (cleanTranscriptText "you you know know".toList {}) {} ≠
      cleanTranscriptText "you you know know".toList {} := by decide

/-- C2 (amended): the normalizer is idempotent on texts for which one pass
reaches a fixed point of the entity-decoding and filler-removal stages,
provided paragraphing is disabled: a second pass then only re-collapses
whitespace, and whitespace collapsing is idempotent. (A second pass can
otherwise decode multiply-encoded entities further, remove filler phrases
exposed by the first removal, or, with paragraphing enabled, re-split
sentences across the gaps the sentence regex skipped.) -/
theorem cleanTranscriptText_idempotent_of_fixed (text : List Char) (opts : CleanOptions)
    (hp : opts.addParagraphs = false ∨ opts.sentencesPerParagraph = 0)
    (hdec : decodeEntities (cleanTranscriptText text opts) = cleanTranscriptText text opts)
    (hfil : removeFillerWords (cleanTranscriptText text opts) = cleanTranscriptText text opts) :
    cleanTranscriptText (cleanTranscriptText text opts) opts = cleanTranscriptText text opts := by
  have hskip : (opts.addParagraphs && decide (0 < opts.sentencesPerParagraph)) = false := by
    rcases hp with h | h <;> simp [h]
  have step : ∀ s : List Char, cleanTranscriptText s opts =
      collapseWs (if opts.removeFillers then removeFillerWords (decodeEntities s)
        else decodeEntities s) := by
    intro s
    unfold cleanTranscriptText
    simp only [hskip, Bool.false_eq_true, if_false]
  by_cases hrf : opts.removeFillers = true
  · calc cleanTranscriptText (cleanTranscriptText text opts) opts
        = collapseWs (removeFillerWords (decodeEntities (cleanTranscriptText text opts))) := by
          rw [step]; simp [hrf]
      _ = collapseWs (cleanTranscriptText text opts) := by rw [hdec, hfil]
      _ = cleanTranscriptText text opts := by
          rw [step text]; exact collapseWs_idem _
  · calc cleanTranscriptText (cleanTranscriptText text opts) opts
        = collapseWs (decodeEntities (cleanTranscriptText text opts)) := by
          rw [step]; simp [hrf]
      _ = collapseWs (cleanTranscriptText text opts) := by rw [hdec]
      _ = cleanTranscriptText text opts := by
          rw [step text]; exact collapseWs_idem _

/-- Witness for the amended C2 theorem at a concrete input. -/
theorem cleanTranscriptText_idempotent_of_fixed_witness :
    cleanTranscriptText
        (cleanTranscriptText "So, that is um the plan.".toList ⟨true, false, 4⟩)
        ⟨true, false, 4⟩ =
      cleanTranscriptText "So, that is um the plan.".toList ⟨true, false, 4⟩ :=
  cleanTranscriptText_idempotent_of_fixed "So, that is um the plan.".toList
    ⟨true, false, 4⟩ (Or.inl rfl) (by decide) (by decide)

theorem lastIndexOf_lt_length {c : Char} :
    ∀ {l : List Char} {i : Nat}, lastIndexOf c l = some i → i < l.length := by
  intro l
  induction l with
  | nil => intro i h; simp [lastIndexOf] at h
  | cons x xs ih =>
    intro i h
    rw [lastIndexOf] at h
    cases hx : lastIndexOf c xs with
    | some j =>
      rw [hx] at h
      simp at h
      have := ih hx
      simp
      omega
    | none =>
      rw [hx] at h
      by_cases hxc : x = c
      · simp [hxc] at h
        subst h
        simp
      · simp [hxc] at h

theorem slice_length_le (l : List Char) (a b : Nat) : (slice l a b).length ≤ b - a := by
  unfold slice
  simp only [List.length_drop, List.length_take]
  omega

theorem trimWs_length_le (l : List Char) : (trimWs l).length ≤ l.length :=
  (trimWs_isInfixOf l).sublist.length_le

/-- Whenever at most 80 percent of the window is used as overlap, the
chosen end exceeds start + overlap, so the cursor strictly advances. -/
theorem stepEnd_lower (chunkSize overlap : Nat) (normalized : List Char) (start : Nat)
    (hcs : 0 < chunkSize) (hov : 5 * overlap ≤ 4 * chunkSize) :
    start + overlap + 1 ≤ stepEnd chunkSize normalized start := by
  unfold stepEnd
  split
  · cases hfind : lastIndexOf '.' (slice normalized start (start + chunkSize + 50)) with
    | none => simp only; omega
    | some b =>
      simp only
      split
      · rename_i hgt
        omega
      · omega
  · omega

/-- The chosen chunk end never exceeds the window plus the 50-character
lookahead. -/
theorem stepEnd_upper (chunkSize : Nat) (normalized : List Char) (start : Nat) :
    stepEnd chunkSize normalized start ≤ start + chunkSize + 50 := by
  unfold stepEnd
  split
  · cases hfind : lastIndexOf '.' (slice normalized start (start + chunkSize + 50)) with
    | none => simp
    | some b =>
      have hb : b < (slice normalized start (start + chunkSize + 50)).length :=
        lastIndexOf_lt_length hfind
      have hsl : (slice normalized start (start + chunkSize + 50)).length ≤
          chunkSize + 50 := by
        have := slice_length_le normalized start (start + chunkSize + 50)
        omega
      simp only
      split
      · omega
      · omega
  · omega

theorem splitSlicesF_length_bound (chunkSize overlap : Nat) (normalized : List Char) :
    ∀ fuel start, ∀ c ∈ splitSlicesF chunkSize overlap normalized fuel start,
      c.length ≤ chunkSize + 50 := by
  intro fuel
  induction fuel with
  | zero => intro start c hc; simp [splitSlicesF] at hc
  | succ fuel ih =>
    intro start c hc
    rw [splitSlicesF] at hc
    split at hc
    · rcases List.mem_cons.mp hc with h | h
      · subst h
        have h1 := slice_length_le normalized start (stepEnd chunkSize normalized start)
        have h2 := stepEnd_upper chunkSize normalized start
        omega
      · exact ih _ c h
    · simp at hc

theorem splitLoopF_eq_map_trim (chunkSize overlap : Nat) (normalized : List Char) :
    ∀ fuel start, splitLoopF chunkSize overlap normalized fuel start =
      (splitSlicesF chunkSize overlap normalized fuel start).map trimWs := by
  intro fuel
  induction fuel with
  | zero => intro start; simp [splitLoopF, splitSlicesF]
  | succ fuel ih =>
    intro start
    rw [splitLoopF, splitSlicesF]
    split
    · simp [ih]
    · simp

theorem slice_eq_take_drop (l : List Char) (a b : Nat) (hab : a ≤ b) :
    slice l a b = (l.drop a).take (b - a) := by
  unfold slice
  rw [List.take_drop, Nat.add_sub_cancel' hab]

theorem slice_append_drop (l : List Char) (a b : Nat) (hab : a ≤ b) :
    slice l a b ++ l.drop b = l.drop a := by
  rw [slice_eq_take_drop l a b hab]
  have : l.drop b = (l.drop a).drop (b - a) := by
    rw [List.drop_drop]
    congr 1
    omega
  rw [this, List.take_append_drop]

theorem drop_slice (l : List Char) (a b k : Nat) :
    (slice l a b).drop k = slice l (a + k) b := by
  unfold slice
  rw [List.drop_drop]

theorem splitSlicesF_flatten_drop (chunkSize overlap : Nat) (normalized : List Char)
    (hcs : 0 < chunkSize) (hov : 5 * overlap ≤ 4 * chunkSize) :
    ∀ fuel start, normalized.length - start ≤ fuel →
      ((splitSlicesF chunkSize overlap normalized fuel start).map
          (List.drop overlap)).flatten =
        normalized.drop (start + overlap) := by
  intro fuel
  induction fuel with
  | zero =>
    intro start h
    rw [splitSlicesF]
    simp only [List.map_nil, List.flatten_nil]
    rw [eq_comm, List.drop_eq_nil_iff]
    omega
  | succ fuel ih =>
    intro start h
    rw [splitSlicesF]
    split
    · rename_i hlt
      have hlow := stepEnd_lower chunkSize overlap normalized start hcs hov
      have hih := ih (stepEnd chunkSize normalized start - overlap) (by omega)
      simp only [List.map_cons, List.flatten_cons]
      rw [hih]
      have hshift : stepEnd chunkSize normalized start - overlap + overlap =
          stepEnd chunkSize normalized start := by omega
      rw [hshift, drop_slice]
      exact slice_append_drop normalized (start + overlap)
        (stepEnd chunkSize normalized start) (by omega)
    · rename_i hge
      simp only [List.map_nil, List.flatten_nil]
      rw [eq_comm, List.drop_eq_nil_iff]
      omega

theorem splitSlicesF_reconstruct (chunkSize overlap : Nat) (normalized : List Char)
    (hcs : 0 < chunkSize) (hov : 5 * overlap ≤ 4 * chunkSize) :
    ∀ fuel start, normalized.length - start ≤ fuel →
      reconstruct overlap (splitSlicesF chunkSize overlap normalized fuel start) =
        normalized.drop start := by
  intro fuel
  induction fuel with
  | zero =>
    intro start h
    rw [splitSlicesF, reconstruct]
    rw [eq_comm, List.drop_eq_nil_iff]
    omega
  | succ fuel ih =>
    intro start h
    rw [splitSlicesF]
    split
    · rename_i hlt
      have hlow := stepEnd_lower chunkSize overlap normalized start hcs hov
      rw [reconstruct]
      rw [splitSlicesF_flatten_drop chunkSize overlap normalized hcs hov fuel
        (stepEnd chunkSize normalized start - overlap) (by omega)]
      have hshift : stepEnd chunkSize normalized start - overlap + overlap =
          stepEnd chunkSize normalized start := by omega
      rw [hshift]
      exact slice_append_drop normalized start (stepEnd chunkSize normalized start)
        (by omega)
    · rw [reconstruct]
      rw [eq_comm, List.drop_eq_nil_iff]
      omega

/-- C3 counterexample: the chunks of split do not reconstruct the
normalized text, because each chunk is trimmed before it is emitted. With
chunkSize 10 and overlap 2 (valid: overlap < chunkSize) on nine letters, a
space, and four letters, the first window ends right after the space, the
trim drops it, and reconstruction loses one character. -/
theorem splitText_reconstruction_fails :
    reconstruct 2 (splitTextP 10 2 "aaaaaaaaa bbbb".toList) ≠
      collapseWs "aaaaaaaaa bbbb".toList := by decide

/-- C3 (amended): for chunkSize and overlap with overlap at most 80 percent
of chunkSize (the script uses 1000 and 100), every chunk of split has
length at most chunkSize plus the 50-character lookahead, and the untrimmed
window slices, with the overlap dropped from every successor, reconstruct
the whitespace-normalized text exactly; the emitted chunks are precisely
the trims of those slices, so reconstruction from the emitted chunks holds
only up to the whitespace the per-chunk trim removes at window edges. -/
theorem splitTextP_length_bound_and_reconstruction
    (chunkSize overlap : Nat) (text : List Char)
    (hcs : 0 < chunkSize) (hov : 5 * overlap ≤ 4 * chunkSize) :
    (∀ c ∈ splitTextP chunkSize overlap text, c.length ≤ chunkSize + 50) ∧
    splitTextP chunkSize overlap text =
      (splitRawSlices chunkSize overlap text).map trimWs ∧
    reconstruct overlap (splitRawSlices chunkSize overlap text) = collapseWs text := by
  refine ⟨?_, ?_, ?_⟩
  · intro c hc
    unfold splitTextP at hc
    split at hc
    · simp at hc
    · rw [splitLoopF_eq_map_trim] at hc
      obtain ⟨d, hd, hdc⟩ := List.mem_map.mp hc
      have h1 := splitSlicesF_length_bound chunkSize overlap (collapseWs text) _ _ d hd
      have h2 := trimWs_length_le d
      rw [← hdc]
      omega
  · unfold splitTextP splitRawSlices
    split
    · simp
    · exact splitLoopF_eq_map_trim _ _ _ _ _
  · unfold splitRawSlices
    split
    · rename_i he
      subst he
      rfl
    · exact splitSlicesF_reconstruct chunkSize overlap (collapseWs text) hcs hov
        (collapseWs text).length 0 (by omega)

/-- Witness for the amended C3 theorem at the script's configuration,
chunkSize 1000 and overlap 100, on a concrete text. -/
theorem splitTextP_length_bound_and_reconstruction_witness :
    (∀ c ∈ splitTextP CHUNK_SIZE CHUNK_OVERLAP "one two. three".toList,
        c.length ≤ CHUNK_SIZE + 50) ∧
    splitTextP CHUNK_SIZE CHUNK_OVERLAP "one two. three".toList =
      (splitRawSlices CHUNK_SIZE CHUNK_OVERLAP "one two. three".toList).map trimWs ∧
    reconstruct CHUNK_OVERLAP
        (splitRawSlices CHUNK_SIZE CHUNK_OVERLAP "one two. three".toList) =
      collapseWs "one two. three".toList :=
  splitTextP_length_bound_and_reconstruction CHUNK_SIZE CHUNK_OVERLAP
    "one two. three".toList (by decide) (by decide)

/-- C4 counterexample: overlap < chunkSize does not guarantee that the
cursor strictly advances. With chunkSize 15 and overlap 14, a text whose
last period sits at index 13 of the window makes the boundary cut choose
end = 14, so the next start, end - overlap, equals the current start: the
source loop would never terminate, and in the fuel embedding the chunk list
never stabilizes as fuel grows. -/
theorem splitText_nontermination :
    (14 < 15) ∧
    stepEnd 15 "aaaaaaaaaaaaa.aaaaaa".toList 0 - 14 = 0 ∧
    splitLoopF 15 14 "aaaaaaaaaaaaa.aaaaaa".toList 20 0 ≠
      splitLoopF 15 14 "aaaaaaaaaaaaa.aaaaaa".toList 21 0 := by decide

/-- C4 (amended): split terminates whenever the overlap is at most 80
percent of the chunk size (which the script's constants 1000 and 100
satisfy): the empty input yields no chunks, the cursor strictly advances at
every iteration, and the emitted chunk list is independent of the fuel
bound once the fuel covers the remaining length. For
4 * chunkSize / 5 < overlap < chunkSize the sentence-boundary cut can move
the cursor backwards, so the claimed guard overlap < chunkSize alone is not
enough. -/
theorem splitTextP_terminates (chunkSize overlap : Nat) (normalized : List Char)
    (start : Nat) (hcs : 0 < chunkSize) (hov : 5 * overlap ≤ 4 * chunkSize) :
    splitTextP chunkSize overlap [] = [] ∧
    start < stepEnd chunkSize normalized start - overlap ∧
    (∀ f1 f2 s, normalized.length - s ≤ f1 → normalized.length - s ≤ f2 →
      splitLoopF chunkSize overlap normalized f1 s =
        splitLoopF chunkSize overlap normalized f2 s) := by
  refine ⟨by simp [splitTextP], ?_, ?_⟩
  · have := stepEnd_lower chunkSize overlap normalized start hcs hov
    omega
  · intro f1
    induction f1 with
    | zero =>
      intro f2 s h1 h2
      rw [splitLoopF]
      cases f2 with
      | zero => rfl
      | succ f2 =>
        rw [splitLoopF]
        rw [if_neg]
        omega
    | succ f1 ih =>
      intro f2 s h1 h2
      cases f2 with
      | zero =>
        rw [splitLoopF, splitLoopF]
        rw [if_neg]
        omega
      | succ f2 =>
        rw [splitLoopF, splitLoopF]
        split
        · rename_i hlt
          have hlow := stepEnd_lower chunkSize overlap normalized s hcs hov
          rw [ih f2 (stepEnd chunkSize normalized s - overlap) (by omega) (by omega)]
        · rfl

/-- Witness for the amended C4 theorem at the script's configuration. -/
theorem splitTextP_terminates_witness :
    splitTextP CHUNK_SIZE CHUNK_OVERLAP [] = [] ∧
    0 < stepEnd CHUNK_SIZE "ab".toList 0 - CHUNK_OVERLAP ∧
    (∀ f1 f2 s, ("ab".toList).length - s ≤ f1 → ("ab".toList).length - s ≤ f2 →
      splitLoopF CHUNK_SIZE CHUNK_OVERLAP "ab".toList f1 s =
        splitLoopF CHUNK_SIZE CHUNK_OVERLAP "ab".toList f2 s) :=
  splitTextP_terminates CHUNK_SIZE CHUNK_OVERLAP "ab".toList 0 (by decide) (by decide)

/-- A video row as the retrieval layer sees it: the store id, the publish
timestamp (milliseconds, 0 when absent), and an abstract payload standing
for the remaining columns and joins. -/
structure VideoRow where
  vid : Nat
  publishedAt : Nat
  payload : Nat
deriving DecidableEq

/-- The seenIds/uniqueVideos loop of hybridSearch (search-server.ts):
deduplicate by video id keeping the first occurrence, with the set of ids
already seen as accumulator. -/
def dedupeAux (seen : List Nat) : List VideoRow → List VideoRow
  | [] => []
  | v :: rest =>
    if v.vid ∈ seen then dedupeAux seen rest
    else v :: dedupeAux (v.vid :: seen) rest

/-- Deduplication by id from an empty seen set. -/
def dedupeById (vs : List VideoRow) : List VideoRow := dedupeAux [] vs

/-- The merge of hybridSearch (search-server.ts): concatenate tag,
semantic, keyword results in that order, deduplicate by id keeping the
first occurrence, truncate to limit. -/
def hybridMerge (tagResults semanticVideos keywordResults : List VideoRow)
    (limit : Nat) : List VideoRow :=
  (dedupeById (tagResults ++ semanticVideos ++ keywordResults)).take limit

/-- The ids accumulated by the dedup loop after processing a list. -/
def seenAcc (seen : List Nat) : List VideoRow → List Nat
  | [] => seen
  | v :: rest => seenAcc (if v.vid ∈ seen then seen else v.vid :: seen) rest

theorem seenAcc_append (xs ys : List VideoRow) :
    ∀ seen, seenAcc seen (xs ++ ys) = seenAcc (seenAcc seen xs) ys := by
  induction xs with
  | nil => intro seen; simp [seenAcc]
  | cons x xs ih =>
    intro seen
    rw [List.cons_append, seenAcc, seenAcc, ih]

theorem dedupeAux_append (xs ys : List VideoRow) :
    ∀ seen, dedupeAux seen (xs ++ ys) =
      dedupeAux seen xs ++ dedupeAux (seenAcc seen xs) ys := by
  induction xs with
  | nil => intro seen; simp [dedupeAux, seenAcc]
  | cons x xs ih =>
    intro seen
    rw [List.cons_append, dedupeAux, dedupeAux, seenAcc]
    by_cases hx : x.vid ∈ seen
    · simp only [hx, if_pos, if_true]
      exact ih seen
    · simp only [hx, if_neg, if_false, List.cons_append]
      rw [ih (x.vid :: seen)]

theorem seenAcc_subset {a : Nat} : ∀ (xs : List VideoRow) (seen : List Nat),
    a ∈ seen → a ∈ seenAcc seen xs := by
  intro xs
  induction xs with
  | nil => intro seen h; simpa [seenAcc] using h
  | cons x xs ih =>
    intro seen h
    rw [seenAcc]
    apply ih
    split
    · exact h
    · exact List.mem_cons_of_mem _ h

theorem mem_seenAcc_of_mem {x : VideoRow} : ∀ (xs : List VideoRow) (seen : List Nat),
    x ∈ xs → x.vid ∈ seenAcc seen xs := by
  intro xs
  induction xs with
  | nil => intro seen h; simp at h
  | cons y ys ih =>
    intro seen h
    rcases List.mem_cons.mp h with h | h
    · subst h
      rw [seenAcc]
      apply seenAcc_subset
      split
      · assumption
      · exact List.mem_cons_self _ _
    · rw [seenAcc]
      exact ih _ h

theorem dedupeAux_filter_of_seen {P : VideoRow → Bool} :
    ∀ (ys : List VideoRow) (seen : List Nat),
      (∀ y ∈ ys, P y = false → y.vid ∈ seen) →
      dedupeAux seen (ys.filter P) = dedupeAux seen ys := by
  intro ys
  induction ys with
  | nil => intro seen h; rfl
  | cons y ys ih =>
    intro seen h
    rw [List.filter_cons]
    by_cases hp : P y = true
    · simp only [hp, if_true]
      rw [dedupeAux, dedupeAux]
      by_cases hy : y.vid ∈ seen
      · simp only [hy, if_pos, if_true]
        exact ih seen (fun z hz hpz => h z (List.mem_cons_of_mem _ hz) hpz)
      · simp only [hy, if_neg, if_false]
        rw [ih (y.vid :: seen)
          (fun z hz hpz => List.mem_cons_of_mem _ (h z (List.mem_cons_of_mem _ hz) hpz))]
    · simp only [hp, if_false, Bool.false_eq_true]
      rw [dedupeAux]
      have hy : y.vid ∈ seen := h y (List.mem_cons_self _ _) (by simpa using hp)
      simp only [hy, if_pos, if_true]
      exact ih seen (fun z hz hpz => h z (List.mem_cons_of_mem _ hz) hpz)

theorem seenAcc_filter_of_seen {P : VideoRow → Bool} :
    ∀ (ys : List VideoRow) (seen : List Nat),
      (∀ y ∈ ys, P y = false → y.vid ∈ seen) →
      seenAcc seen (ys.filter P) = seenAcc seen ys := by
  intro ys
  induction ys with
  | nil => intro seen h; rfl
  | cons y ys ih =>
    intro seen h
    rw [List.filter_cons]
    by_cases hp : P y = true
    · simp only [hp, if_true]
      rw [seenAcc, seenAcc]
      split
      · exact ih seen (fun z hz hpz => h z (List.mem_cons_of_mem _ hz) hpz)
      · exact ih (y.vid :: seen)
          (fun z hz hpz => List.mem_cons_of_mem _ (h z (List.mem_cons_of_mem _ hz) hpz))
    · simp only [hp, if_false, Bool.false_eq_true]
      rw [seenAcc]
      have hy : y.vid ∈ seen := h y (List.mem_cons_self _ _) (by simpa using hp)
      simp only [hy, if_pos, if_true]
      exact ih seen (fun z hz hpz => h z (List.mem_cons_of_mem _ hz) hpz)

theorem dedupeAux_vid_not_seen {x : VideoRow} :
    ∀ (l : List VideoRow) (seen : List Nat), x ∈ dedupeAux seen l → x.vid ∉ seen := by
  intro l
  induction l with
  | nil => intro seen h; simp [dedupeAux] at h
  | cons v vs ih =>
    intro seen h
    rw [dedupeAux] at h
    split at h
    · exact ih _ h
    · rcases List.mem_cons.mp h with h | h
      · subst h; assumption
      · intro hx
        exact ih _ h (List.mem_cons_of_mem _ hx)

theorem dedupeAux_nodup : ∀ (l : List VideoRow) (seen : List Nat),
    ((dedupeAux seen l).map (fun v => v.vid)).Nodup := by
  intro l
  induction l with
  | nil => intro seen; simp [dedupeAux]
  | cons v vs ih =>
    intro seen
    rw [dedupeAux]
    split
    · exact ih _
    · rw [List.map_cons, List.nodup_cons]
      refine ⟨?_, ih _⟩
      intro hmem
      obtain ⟨y, hy, hyv⟩ := List.mem_map.mp hmem
      have := dedupeAux_vid_not_seen _ _ hy
      exact this (hyv ▸ List.mem_cons_self _ _)

theorem mem_map_vid_dedupeAux {a : Nat} :
    ∀ (l : List VideoRow) (seen : List Nat),
      a ∈ l.map (fun v => v.vid) → a ∉ seen →
      a ∈ (dedupeAux seen l).map (fun v => v.vid) := by
  intro l
  induction l with
  | nil => intro seen h _; simp at h
  | cons v vs ih =>
    intro seen h ha
    rw [dedupeAux]
    rw [List.map_cons, List.mem_cons] at h
    split
    · rcases h with h | h
      · subst h; exact absurd (by assumption) ha
      · exact ih _ h ha
    · rcases h with h | h
      · subst h; simp
      · rw [List.map_cons, List.mem_cons]
        by_cases hv : a = v.vid
        · exact Or.inl hv
        · exact Or.inr (ih _ h (by
            intro hmem
            rcases List.mem_cons.mp hmem with h1 | h1
            · exact hv h1
            · exact ha h1))

/-- C1: the hybrid search merge concatenates the tag, semantic and lexical
result lists in that priority order, deduplicates by video id keeping the
first occurrence, and truncates to limit. Consequently the returned ids
are pairwise distinct, the result length is at most limit, every id of the
input occurs exactly once in the deduplicated merge, and semantic entries
whose id already occurs among the tag results can be removed without
changing the result — a video hit by both strategies sits exactly where the
tag hit alone would put it. -/
theorem hybridMerge_spec (tagResults semanticVideos keywordResults : List VideoRow)
    (limit : Nat) :
    ((hybridMerge tagResults semanticVideos keywordResults limit).map
        (fun v => v.vid)).Nodup ∧
    (hybridMerge tagResults semanticVideos keywordResults limit).length ≤ limit ∧
    (∀ a, a ∈ (tagResults ++ semanticVideos ++ keywordResults).map (fun v => v.vid) →
      ((dedupeById (tagResults ++ semanticVideos ++ keywordResults)).map
          (fun v => v.vid)).count a = 1) ∧
    hybridMerge tagResults
        (semanticVideos.filter (fun s => !(tagResults.any (fun t => t.vid == s.vid))))
        keywordResults limit =
      hybridMerge tagResults semanticVideos keywordResults limit := by
  refine ⟨?_, ?_, ?_, ?_⟩
  · unfold hybridMerge
    rw [List.map_take]
    exact List.Nodup.sublist (List.take_sublist _ _) (dedupeAux_nodup _ _)
  · exact List.length_take_le _ _
  · intro a ha
    have hmem : a ∈ (dedupeById (tagResults ++ semanticVideos ++ keywordResults)).map
        (fun v => v.vid) :=
      mem_map_vid_dedupeAux _ [] ha (by simp)
    exact List.count_eq_one_of_mem (dedupeAux_nodup _ _) hmem
  · unfold hybridMerge dedupeById
    congr 1
    rw [dedupeAux_append, dedupeAux_append, dedupeAux_append, dedupeAux_append]
    have hdrop : ∀ y ∈ semanticVideos,
        (!(tagResults.any (fun t => t.vid == y.vid))) = false →
        y.vid ∈ seenAcc [] tagResults := by
      intro y _ hy
      simp only [Bool.not_eq_false', List.any_eq_true, beq_iff_eq] at hy
      obtain ⟨t, ht, htv⟩ := hy
      exact htv ▸ mem_seenAcc_of_mem tagResults [] ht
    rw [seenAcc_append, seenAcc_append,
      dedupeAux_filter_of_seen semanticVideos (seenAcc [] tagResults) hdrop,
      seenAcc_filter_of_seen semanticVideos (seenAcc [] tagResults) hdrop]

/-- Witness for C1 at the spec's scenario: the tag strategy returns V1,
the semantic strategy returns V2, the lexical strategy returns nothing,
and the merged result keeps both in priority order with distinct ids. -/
theorem hybridMerge_spec_witness :
    ((hybridMerge [⟨1, 5, 0⟩] [⟨2, 7, 0⟩] [] 20).map (fun v => v.vid)).Nodup ∧
    (hybridMerge [⟨1, 5, 0⟩] [⟨2, 7, 0⟩] [] 20).length ≤ 20 ∧
    ((dedupeById (([⟨1, 5, 0⟩] : List VideoRow) ++ [⟨2, 7, 0⟩] ++ [])).map
        (fun v => v.vid)).count 1 = 1 ∧
    hybridMerge [⟨1, 5, 0⟩]
        (([⟨2, 7, 0⟩] : List VideoRow).filter
          (fun s => !(([⟨1, 5, 0⟩] : List VideoRow).any (fun t => t.vid == s.vid))))
        [] 20 =
      hybridMerge [⟨1, 5, 0⟩] [⟨2, 7, 0⟩] [] 20 ∧
    hybridMerge [⟨1, 5, 0⟩] [⟨2, 7, 0⟩] [] 20 = [⟨1, 5, 0⟩, ⟨2, 7, 0⟩] := by
  have h := hybridMerge_spec [⟨1, 5, 0⟩] [⟨2, 7, 0⟩] [] 20
  exact ⟨h.1, h.2.1, h.2.2.1 1 (by decide), h.2.2.2, by decide⟩

/-- The last element of the list carrying the given id, else the default
(the JS Map built from [id, video] pairs keeps the last value set for a
key). -/
def lastWithId (dflt : VideoRow) (k : Nat) : List VideoRow → VideoRow
  | [] => dflt
  | v :: rest => if v.vid = k then lastWithId v k rest else lastWithId dflt k rest

/-- The Map-based dedup of searchVideos (supabase.ts): key order is first
insertion, value is the last insertion for that key. Recursion is over an
explicit fuel; the list length is sufficient. -/
def mapDedupF : Nat → List VideoRow → List VideoRow
  | _, [] => []
  | 0, _ => []
  | fuel + 1, v :: rest =>
    lastWithId v v.vid rest ::
      mapDedupF fuel (rest.filter (fun w => w.vid ≠ v.vid))

/-- Map dedup at full fuel. -/
def mapDedup (l : List VideoRow) : List VideoRow := mapDedupF l.length l

/-- Stable insertion before the first element of smaller-or-equal publish
date (descending order, ties keep the existing order). -/
def insertByDateDesc (v : VideoRow) : List VideoRow → List VideoRow
  | [] => [v]
  | w :: ws =>
    if w.publishedAt ≤ v.publishedAt then v :: w :: ws
    else w :: insertByDateDesc v ws

/-- The stable sort of searchVideos (supabase.ts): comparator
(a, b) => dateB - dateA, i.e. publish date descending. -/
def sortByDateDesc : List VideoRow → List VideoRow
  | [] => []
  | v :: vs => insertByDateDesc v (sortByDateDesc vs)

/-- The merge, dedup, sort and pagination of searchVideos (supabase.ts):
title/description substring matches first, then full-text transcript
matches, dedup by id through a Map, sort by published_at descending, then
slice(offset, offset + limit). -/
def searchVideosMerge (videoResults transcriptResults : List VideoRow)
    (limit offset : Nat) : List VideoRow :=
  ((sortByDateDesc (mapDedup (videoResults ++ transcriptResults))).drop offset).take
    limit

theorem mem_insertByDateDesc {v x : VideoRow} :
    ∀ {l : List VideoRow}, x ∈ insertByDateDesc v l → x = v ∨ x ∈ l := by
  intro l
  induction l with
  | nil => intro h; simpa [insertByDateDesc] using h
  | cons w ws ih =>
    intro h
    rw [insertByDateDesc] at h
    split at h
    · rcases List.mem_cons.mp h with h | h
      · exact Or.inl h
      · exact Or.inr h
    · rcases List.mem_cons.mp h with h | h
      · exact Or.inr (h ▸ List.mem_cons_self _ _)
      · rcases ih h with h | h
        · exact Or.inl h
        · exact Or.inr (List.mem_cons_of_mem _ h)

theorem insertByDateDesc_sorted {v : VideoRow} :
    ∀ {l : List VideoRow},
      l.Pairwise (fun a b => b.publishedAt ≤ a.publishedAt) →
      (insertByDateDesc v l).Pairwise (fun a b => b.publishedAt ≤ a.publishedAt) := by
  intro l
  induction l with
  | nil => intro _; simp [insertByDateDesc]
  | cons w ws ih =>
    intro h
    rw [insertByDateDesc]
    rcases List.pairwise_cons.mp h with ⟨hw, hws⟩
    split
    · rename_i hle
      rw [List.pairwise_cons]
      refine ⟨?_, h⟩
      intro y hy
      rcases List.mem_cons.mp hy with h1 | h1
      · exact h1 ▸ hle
      · exact le_trans (hw y h1) hle
    · rename_i hgt
      rw [List.pairwise_cons]
      refine ⟨?_, ih hws⟩
      intro y hy
      rcases mem_insertByDateDesc hy with h1 | h1
      · subst h1; omega
      · exact hw y h1

theorem sortByDateDesc_sorted :
    ∀ (l : List VideoRow),
      (sortByDateDesc l).Pairwise (fun a b => b.publishedAt ≤ a.publishedAt) := by
  intro l
  induction l with
  | nil => simp [sortByDateDesc]
  | cons v vs ih =>
    rw [sortByDateDesc]
    exact insertByDateDesc_sorted ih

/-- C10 counterexample: the lexical search does not return the store's
text-relevance order. Two full-text hits arriving in relevance order are
returned sorted by publish date descending: the more recent, less relevant
video comes first. -/
theorem searchVideos_not_relevance_ranked :
    searchVideosMerge [] [⟨1, 10, 0⟩, ⟨2, 20, 0⟩] 20 0 ≠
      [⟨1, 10, 0⟩, ⟨2, 20, 0⟩] ∧
    searchVideosMerge [] [⟨1, 10, 0⟩, ⟨2, 20, 0⟩] 20 0 =
      [⟨2, 20, 0⟩, ⟨1, 10, 0⟩] := by decide

/-- C10 (amended): the lexical strategy merges the title/description
matches with the full-text transcript matches, deduplicates by id through
a Map (first-insertion key order, last-insertion value), and returns the
page sorted by publish date descending — not by the store's native
text-relevance ordering, which the code discards by re-sorting. -/
theorem searchVideosMerge_sorted (videoResults transcriptResults : List VideoRow)
    (limit offset : Nat) :
    (searchVideosMerge videoResults transcriptResults limit offset).Pairwise
      (fun a b => b.publishedAt ≤ a.publishedAt) ∧
    searchVideosMerge videoResults transcriptResults limit offset =
      ((sortByDateDesc (mapDedup (videoResults ++ transcriptResults))).drop
        offset).take limit := by
  refine ⟨?_, rfl⟩
  unfold searchVideosMerge
  exact ((sortByDateDesc_sorted _).sublist (List.drop_sublist _ _)).sublist
    (List.take_sublist _ _)

/-- A timed caption segment (offsets in milliseconds, as the code rounds
them to integers). -/
structure Segment where
  text : String
  offset : Nat
  duration : Nat
deriving DecidableEq

/-- A transcript acquisition result of transcript.ts / whisper.ts: full
text, segments, and the source tag exactly as the code stores it. -/
structure TranscriptResult where
  text : String
  segments : List Segment
  source : String
deriving DecidableEq

/-- fetchTranscript (lib/transcript.ts) over the caption provider response:
none models a thrown provider error; an empty segment list returns null;
otherwise the segment texts are space-joined and the source tag is the
literal string extractor. -/
def fetchTranscript (fetched : Option (List Segment)) : Option TranscriptResult :=
  match fetched with
  | none => none
  | some segs =>
    if segs.isEmpty then none
    else some
      { text := String.intercalate " " (segs.map (fun s => s.text))
        segments := segs
        source := "extractor" }

/-- Environment of one transcribeWithWhisper run (lib/whisper.ts): whether
yt-dlp is on the PATH, the byte size of the downloaded audio file (none
when the download fails or the file is missing), and the transcription
response (none when the API call throws). Float second-to-millisecond
conversions of segment timestamps are taken as given in the segments. -/
structure WhisperEnv where
  ytDlpAvailable : Bool
  downloadedBytes : Option Nat
  apiResponse : Option (String × List Segment)
deriving DecidableEq

/-- What a transcribeWithWhisper run produced and did: its return value,
whether the speech-to-text API was invoked, and whether the scratch audio
file was deleted. -/
structure WhisperOutcome where
  result : Option TranscriptResult
  apiInvoked : Bool
  fileRemoved : Bool
deriving DecidableEq

/-- The payload ceiling of whisper.ts: fileSizeInMB > 24 with fileSizeInMB
= size / (1024 * 1024), i.e. size > 24 MiB in bytes (the division by a
power of two is exact in the source's floating point for any realistic
size). -/
def WHISPER_LIMIT_BYTES : Nat := 24 * 1024 * 1024

/-- transcribeWithWhisper (lib/whisper.ts): bail out without a file when
yt-dlp is absent or the download fails; delete the file and return null
without calling the API when the size exceeds the ceiling; otherwise call
the API, trim the segment texts, fall back to joining them when the
response text is empty, delete the file, and tag the source as the literal
string whisper. An API error is caught, the file is still deleted, and
null is returned. -/
def transcribeWithWhisper (env : WhisperEnv) : WhisperOutcome :=
  if !env.ytDlpAvailable then ⟨none, false, false⟩
  else
    match env.downloadedBytes with
    | none => ⟨none, false, false⟩
    | some size =>
      if WHISPER_LIMIT_BYTES < size then ⟨none, false, true⟩
      else
        match env.apiResponse with
        | none => ⟨none, true, true⟩
        | some (text, segs) =>
          let msegs := segs.map (fun s => { s with text := String.mk (trimWs s.text.toList) })
          ⟨some
            { text := if text ≠ "" then text
                else String.intercalate " " (msegs.map (fun s => s.text))
              segments := msegs
              source := "whisper" }, true, true⟩

/-- The acquisition fallback chain of ingestVideo (scripts/ingest.ts):
captions first, Whisper only when fetchTranscript returned null. -/
def acquireTranscript (fetched : Option (List Segment)) (wenv : WhisperEnv) :
    Option TranscriptResult :=
  match fetchTranscript fetched with
  | some r => some r
  | none => (transcribeWithWhisper wenv).result

/-- C5 counterexample: when the caption provider returns no segments and
the Whisper fallback succeeds, the stored source tag is the literal string
whisper — not whisper-fallback as the spec names it (the schema CHECK
constraint also only admits whisper). -/
theorem acquire_source_tag_counterexample :
    fetchTranscript (some []) = none ∧
    (acquireTranscript (some [])
        ⟨true, some 1000, some ("hello there", [])⟩).map
      (fun r => r.source) = some "whisper" ∧
    ¬((acquireTranscript (some [])
        ⟨true, some 1000, some ("hello there", [])⟩).map
      (fun r => r.source) = some "whisper-fallback") := by decide

/-- Every result transcribeWithWhisper returns carries the source tag
whisper. -/
theorem whisper_result_source (env : WhisperEnv) (r : TranscriptResult)
    (h : (transcribeWithWhisper env).result = some r) : r.source = "whisper" := by
  unfold transcribeWithWhisper at h
  split at h
  · simp at h
  · split at h
    · simp at h
    · split at h
      · simp at h
      · split at h
        · simp at h
        · simp only [Option.some.injEq] at h
          rw [← h]

/-- C5 (amended): whenever the primary caption provider yields no segments
(or throws) and the fallback produces a result, the acquired result's
source is the fallback's tag, the literal string whisper, and never the
primary's tag extractor. -/
theorem acquire_source_is_fallback_tag (fetched : Option (List Segment))
    (wenv : WhisperEnv) (r : TranscriptResult)
    (hprimary : fetchTranscript fetched = none)
    (hacq : acquireTranscript fetched wenv = some r) :
    r.source = "whisper" ∧ r.source ≠ "extractor" := by
  unfold acquireTranscript at hacq
  rw [hprimary] at hacq
  have hs := whisper_result_source wenv r hacq
  exact ⟨hs, by rw [hs]; decide⟩

/-- Witness for the amended C5 theorem at a concrete environment. -/
theorem acquire_source_is_fallback_tag_witness :
    ((acquireTranscript (some []) ⟨true, some 1000, some ("hi", [])⟩).get
        (by decide)).source = "whisper" ∧
    ((acquireTranscript (some []) ⟨true, some 1000, some ("hi", [])⟩).get
        (by decide)).source ≠ "extractor" :=
  acquire_source_is_fallback_tag (some []) ⟨true, some 1000, some ("hi", [])⟩
    _ (by decide) (by decide)

/-- C6: an audio file above the ceiling makes the Whisper fallback return
null for that attempt without invoking the speech-to-text provider, and
the scratch file is removed. -/
theorem whisper_oversize_hard_fail (env : WhisperEnv) (size : Nat)
    (hyt : env.ytDlpAvailable = true)
    (hdl : env.downloadedBytes = some size)
    (hsize : WHISPER_LIMIT_BYTES < size) :
    transcribeWithWhisper env =
      { result := none, apiInvoked := false, fileRemoved := true } := by
  unfold transcribeWithWhisper
  simp only [hyt, hdl]
  simp [hsize]

/-- Witness for C6 at the spec's scenario: a 30 MiB file against the
24 MiB ceiling. -/
theorem whisper_oversize_hard_fail_witness :
    transcribeWithWhisper ⟨true, some (30 * 1024 * 1024), some ("x", [])⟩ =
      { result := none, apiInvoked := false, fileRemoved := true } :=
  whisper_oversize_hard_fail ⟨true, some (30 * 1024 * 1024), some ("x", [])⟩
    (30 * 1024 * 1024) rfl rfl (by decide)

/-- JS String.prototype.toLowerCase restricted to ASCII, character by
character. -/
def strToLower (s : String) : String := String.mk (s.toList.map Char.toLower)

/-- The enrichment output of processTranscript (lib/llm.ts). -/
structure Processed where
  cleanedText : String
  summary : String
  tags : List String
deriving DecidableEq

/-- Outcome of the processTranscript call: a payload, or the exception the
caller catches. (generateTags already absorbs tag-JSON parse failures into
an empty list inside a successful payload.) -/
inductive LlmOutcome
  | ok (p : Processed)
  | err (e : String)
deriving DecidableEq

/-- Environment of one processTranscript call (lib/llm.ts): the outcome of
the cleaning call, of the summary call, and of the tagging call. The
tagging response distinguishes a thrown API failure (error), a response
whose JSON does not parse to a tag array (ok none), and a parsed tag
array. -/
structure LlmEnv where
  cleanResult : Except String String
  summaryResult : Except String String
  tagsResult : Except String (Option (List String))

/-- generateTags (lib/llm.ts): a malformed tags payload degrades to the
empty list instead of propagating a parse failure; a thrown call
propagates. -/
def generateTagsResult (r : Except String (Option (List String))) :
    Except String (List String) :=
  match r with
  | .error e => .error e
  | .ok none => .ok []
  | .ok (some ts) => .ok ts

/-- processTranscript (lib/llm.ts): cleaning runs first and its output
feeds the summary and tagging calls (run concurrently; a rejection of
either rejects the whole call); any thrown sub-step failure propagates to
the caller as the exception ingestVideo catches. -/
def processTranscript (env : LlmEnv) : LlmOutcome :=
  match env.cleanResult with
  | .error e => .err e
  | .ok cleaned =>
    match env.summaryResult, generateTagsResult env.tagsResult with
    | .error e, _ => .err e
    | .ok _, .error e => .err e
    | .ok summary, .ok tags => .ok ⟨cleaned, summary, tags⟩

/-- A thrown failure in any of the three enrichment sub-steps surfaces as
an exception of the whole processTranscript call. -/
theorem processTranscript_err_of_substep (lenv : LlmEnv) (e : String)
    (hfail : lenv.cleanResult = .error e ∨ lenv.summaryResult = .error e ∨
      lenv.tagsResult = .error e) :
    ∃ e2, processTranscript lenv = .err e2 := by
  unfold processTranscript
  rcases hfail with h | h | h
  · rw [h]
    exact ⟨e, rfl⟩
  · cases hc : lenv.cleanResult with
    | error e1 => exact ⟨e1, rfl⟩
    | ok cleaned =>
      rw [h]
      cases ht : generateTagsResult lenv.tagsResult with
      | error e2 => exact ⟨e, rfl⟩
      | ok ts => exact ⟨e, rfl⟩
  · cases hc : lenv.cleanResult with
    | error e1 => exact ⟨e1, rfl⟩
    | ok cleaned =>
      have ht : generateTagsResult lenv.tagsResult = .error e := by
        unfold generateTagsResult
        rw [h]
      rw [ht]
      cases hs : lenv.summaryResult with
      | error e1 => exact ⟨e1, rfl⟩
      | ok summary => exact ⟨e, rfl⟩

/-- Environment of one ingestVideo run (scripts/ingest.ts): the status of
an existing video row if any, whether the metadata lookup finds the video,
the caption provider response, the Whisper environment, the enrichment
outcome and the skip-llm flag. Store writes are modeled as always
succeeding, so the generic catch block (which writes an error log entry)
is not exercised. -/
structure IngestEnv where
  existingStatus : Option String
  videoInfoFound : Bool
  fetched : Option (List Segment)
  whisper : WhisperEnv
  llm : LlmOutcome
  skipLlm : Bool
deriving DecidableEq

/-- One write issued against the store during an ingestVideo run, in
order. -/
inductive StoreEvent
  | logInsert (step status : String)
  | videoUpsert (status : String)
  | transcriptUpsert (raw cleaned : String) (summary : Option String)
      (source processingStatus : String)
  | tagUpsert (name : String)
  | videoTagUpsert (name : String)
deriving DecidableEq

/-- The return value of ingestVideo. -/
inductive IngestResult
  | skipped
  | failed (e : String)
  | success
deriving DecidableEq

/-- The tag persistence loop of ingestVideo: for each derived tag, an
upsert of the lowercased tag by unique name, then an upsert of the
(video, tag) join row. -/
def tagEvents (tags : List String) : List StoreEvent :=
  (tags.map (fun t =>
    [StoreEvent.tagUpsert (strToLower t), StoreEvent.videoTagUpsert (strToLower t)])).flatten

/-- ingestVideo (scripts/ingest.ts): skip when already completed, fail when
the metadata lookup misses, otherwise mark processing, acquire (captions
then Whisper, logging the step), enrich unless skipped (logging the step
and falling back to the raw text with empty summary and tags when the
enrichment call throws), upsert the transcript with processing_status
completed (empty summary stored as null), upsert/link each tag and mark
the video completed. -/
def ingestVideo (env : IngestEnv) : IngestResult × List StoreEvent :=
  if env.existingStatus = some "completed" then (.skipped, [])
  else if !env.videoInfoFound then (.failed "Video not found", [])
  else
    let ev1 := [StoreEvent.videoUpsert "processing",
      StoreEvent.logInsert "fetch_transcript" "started"]
    match acquireTranscript env.fetched env.whisper with
    | none =>
      (.failed "No transcript",
        ev1 ++ [.logInsert "fetch_transcript" "failed", .videoUpsert "failed"])
    | some tr =>
      let ev2 := ev1 ++ [.logInsert "fetch_transcript" "completed"]
      let enriched :=
        if env.skipLlm then (tr.text, "", ([] : List String), ev2)
        else
          match env.llm with
          | .ok p => (p.cleanedText, p.summary, p.tags,
              ev2 ++ [.logInsert "llm_processing" "started",
                .logInsert "llm_processing" "completed"])
          | .err _ => (tr.text, "", [],
              ev2 ++ [.logInsert "llm_processing" "started",
                .logInsert "llm_processing" "failed"])
      match enriched with
      | (cleaned, summary, tags, ev3) =>
        let ev4 := ev3 ++ [.transcriptUpsert tr.text cleaned
          (if summary = "" then none else some summary) tr.source "completed"]
        (.success, ev4 ++ tagEvents tags ++ [.videoUpsert "completed"])

/-- Whether a store event is an IngestionLog insert. -/
def isLogEvent : StoreEvent → Bool
  | .logInsert _ _ => true
  | _ => false

/-- Whether a store event is the transcript upsert. -/
def isTranscriptUpsert : StoreEvent → Bool
  | .transcriptUpsert _ _ _ _ _ => true
  | _ => false

/-- The step name of a log insert (empty for other events). -/
def logStep : StoreEvent → String
  | .logInsert step _ => step
  | _ => ""

/-- C7: a thrown failure inside any enrichment sub-step — cleaning,
summary or tagging — does not abort the pipeline: the run still succeeds,
and the full write trace is exactly — mark processing, log acquisition
start and completion, log enrichment start and failure, upsert the
transcript with the raw text as cleaned text, null summary and
processing_status completed, link no tags, and mark the video completed. -/
theorem ingestVideo_enrichment_failure_degrades (env : IngestEnv) (lenv : LlmEnv)
    (tr : TranscriptResult) (e : String)
    (hst : ¬(env.existingStatus = some "completed"))
    (hfound : env.videoInfoFound = true)
    (hacq : acquireTranscript env.fetched env.whisper = some tr)
    (hskip : env.skipLlm = false)
    (henv : env.llm = processTranscript lenv)
    (hfail : lenv.cleanResult = .error e ∨ lenv.summaryResult = .error e ∨
      lenv.tagsResult = .error e) :
    ingestVideo env =
      (.success,
        [.videoUpsert "processing",
         .logInsert "fetch_transcript" "started",
         .logInsert "fetch_transcript" "completed",
         .logInsert "llm_processing" "started",
         .logInsert "llm_processing" "failed",
         .transcriptUpsert tr.text tr.text none tr.source "completed",
         .videoUpsert "completed"]) := by
  obtain ⟨e2, he2⟩ := processTranscript_err_of_substep lenv e hfail
  unfold ingestVideo
  rw [if_neg hst, hfound, hacq, hskip, henv, he2]
  simp [tagEvents]

/-- Witness for C7 at a concrete environment whose enrichment call
throws. -/
theorem ingestVideo_enrichment_failure_degrades_witness :
    ingestVideo
        ⟨none, true, some [⟨"hello world", 0, 1000⟩], ⟨true, none, none⟩,
          processTranscript ⟨.ok "Hello world.", .error "rate limited", .ok none⟩,
          false⟩ =
      (.success,
        [.videoUpsert "processing",
         .logInsert "fetch_transcript" "started",
         .logInsert "fetch_transcript" "completed",
         .logInsert "llm_processing" "started",
         .logInsert "llm_processing" "failed",
         .transcriptUpsert "hello world" "hello world" none "extractor" "completed",
         .videoUpsert "completed"]) :=
  ingestVideo_enrichment_failure_degrades
    ⟨none, true, some [⟨"hello world", 0, 1000⟩], ⟨true, none, none⟩,
      processTranscript ⟨.ok "Hello world.", .error "rate limited", .ok none⟩, false⟩
    ⟨.ok "Hello world.", .error "rate limited", .ok none⟩
    ⟨"hello world", [⟨"hello world", 0, 1000⟩], "extractor"⟩ "rate limited"
    (by decide) rfl (by decide) rfl rfl (Or.inr (Or.inl rfl))

/-- A concrete fully successful run: captions found, enrichment succeeds
with one derived tag. -/
def envSuccess : IngestEnv :=
  ⟨none, true, some [⟨"hello governance world", 0, 1000⟩], ⟨true, none, none⟩,
    .ok ⟨"Hello governance world.", "a summary", ["Governance"]⟩, false⟩

/-- C8 counterexample: in a fully successful run with enrichment, exactly
four IngestionLog entries are written, all for the acquisition and
enrichment steps; no entry follows the transcript upsert even though the
tag-linking and completion steps still run — so the transcript upsert,
tag linking and completion steps write no IngestionLog entry at all. -/
theorem ingestVideo_steps_without_log :
    ((ingestVideo envSuccess).2.filter isLogEvent).map logStep =
      ["fetch_transcript", "fetch_transcript", "llm_processing", "llm_processing"] ∧
    ((ingestVideo envSuccess).2.dropWhile
        (fun ev => !isTranscriptUpsert ev)).filter isLogEvent = [] ∧
    (ingestVideo envSuccess).2.any isTranscriptUpsert = true ∧
    (ingestVideo envSuccess).2.any
      (fun ev => ev == .tagUpsert "governance") = true ∧
    (ingestVideo envSuccess).2.any
      (fun ev => ev == .videoUpsert "completed") = true := by decide

theorem tagEvents_filter_log (tags : List String) :
    (tagEvents tags).filter isLogEvent = [] := by
  induction tags with
  | nil => rfl
  | cons t ts ih =>
    unfold tagEvents at *
    simp only [List.map_cons, List.flatten_cons, List.filter_append, ih,
      List.append_nil]
    rfl

/-- C8 (amended): only the acquisition and enrichment steps write
IngestionLog entries (a start entry and an outcome entry each, written
before the orchestrator proceeds); the transcript upsert, the tag linking
and the completion update write none — in every run, no log entry appears
at or after the transcript upsert, and every log entry belongs to the
fetch_transcript or llm_processing step. (The generic catch block around
the whole run additionally writes an error entry on a store failure, which
this embedding does not model.) -/
theorem ingestLog_only_acquisition_and_enrichment (env : IngestEnv) :
    (((ingestVideo env).2.filter isLogEvent).all
      (fun ev => logStep ev == "fetch_transcript" ||
        logStep ev == "llm_processing")) = true ∧
    ((ingestVideo env).2.dropWhile (fun ev => !isTranscriptUpsert ev)).filter
      isLogEvent = [] := by
  unfold ingestVideo
  split
  · exact ⟨rfl, rfl⟩
  · split
    · exact ⟨rfl, rfl⟩
    · split
      · exact ⟨rfl, rfl⟩
      · rename_i tr
        by_cases hskip : env.skipLlm = true
        · simp only [hskip, if_true]
          refine ⟨?_, ?_⟩
          · simp [isLogEvent, logStep, List.filter_append, tagEvents_filter_log]
          · simp [isTranscriptUpsert, isLogEvent, List.dropWhile, List.filter_append,
              tagEvents_filter_log]
        · simp only [hskip, Bool.false_eq_true, if_false]
          cases hllm : env.llm with
          | ok p =>
            refine ⟨?_, ?_⟩
            · simp [isLogEvent, logStep, List.filter_append, tagEvents_filter_log]
            · simp [isTranscriptUpsert, isLogEvent, List.dropWhile,
                List.filter_append, tagEvents_filter_log]
          | err e =>
            refine ⟨?_, ?_⟩
            · simp [isLogEvent, logStep, List.filter_append, tagEvents_filter_log]
            · simp [isTranscriptUpsert, isLogEvent, List.dropWhile,
                List.filter_append, tagEvents_filter_log]

/-- A tag row of the store: surrogate id and unique canonical name. -/
structure TagRow where
  tid : Nat
  name : String
deriving DecidableEq

/-- The tag-related slice of the relational store: the tags table (name
unique), the video_tags join table (primary key (video_id, tag_id)), and
the id allocator. -/
structure TagStore where
  tags : List TagRow
  videoTags : List (Nat × Nat)
  nextId : Nat
deriving DecidableEq

/-- The tags upsert with onConflict name (scripts/ingest.ts): when a row
with the name exists the conflict is absorbed and the existing row is
returned, otherwise a fresh row is inserted. -/
def upsertTag (name : String) (s : TagStore) : TagRow × TagStore :=
  match s.tags.find? (fun t => t.name == name) with
  | some t => (t, s)
  | none =>
    (⟨s.nextId, name⟩,
      { s with tags := s.tags ++ [⟨s.nextId, name⟩], nextId := s.nextId + 1 })

/-- The video_tags upsert (scripts/ingest.ts): the primary key
(video_id, tag_id) absorbs the conflict, so a present pair is left
untouched. -/
def upsertVideoTag (videoId tagId : Nat) (s : TagStore) : TagStore :=
  if (videoId, tagId) ∈ s.videoTags then s
  else { s with videoTags := s.videoTags ++ [(videoId, tagId)] }

/-- One iteration of the tag loop of ingestVideo: lowercase the derived
tag, upsert it by name, then upsert the join row. -/
def saveTag (videoId : Nat) (tagName : String) (s : TagStore) : TagStore :=
  match upsertTag (strToLower tagName) s with
  | (t, s1) => upsertVideoTag videoId t.tid s1

/-- The whole tag loop of ingestVideo. -/
def saveTags (videoId : Nat) (tagNames : List String) (s : TagStore) : TagStore :=
  tagNames.foldl (fun st n => saveTag videoId n st) s

/-- Whether the store already links the video to a tag of this canonical
name through the row the name lookup would find. -/
def containsLink (s : TagStore) (videoId : Nat) (lname : String) : Prop :=
  match s.tags.find? (fun t => t.name == lname) with
  | some t => (videoId, t.tid) ∈ s.videoTags
  | none => False

theorem find?_append_none {p : TagRow → Bool} {xs : List TagRow}
    (h : xs.find? p = none) (ys : List TagRow) :
    (xs ++ ys).find? p = ys.find? p := by
  induction xs with
  | nil => simp
  | cons x xs ih =>
    rw [List.find?_cons] at h
    split at h
    · exact absurd h (by simp)
    · rename_i heq
      rw [List.cons_append, List.find?_cons]
      simp only [heq]
      exact ih h

theorem find?_append_some {p : TagRow → Bool} {xs : List TagRow} {t : TagRow}
    (h : xs.find? p = some t) (ys : List TagRow) :
    (xs ++ ys).find? p = some t := by
  induction xs with
  | nil => simp at h
  | cons x xs ih =>
    rw [List.find?_cons] at h
    rw [List.cons_append, List.find?_cons]
    split at h
    · exact h
    · exact ih h

theorem upsertVideoTag_tags (videoId tagId : Nat) (s : TagStore) :
    (upsertVideoTag videoId tagId s).tags = s.tags := by
  unfold upsertVideoTag
  split
  · rfl
  · rfl

theorem upsertVideoTag_mem (videoId tagId : Nat) (s : TagStore) :
    (videoId, tagId) ∈ (upsertVideoTag videoId tagId s).videoTags := by
  unfold upsertVideoTag
  split
  · assumption
  · simp

theorem upsertVideoTag_mem_mono (s : TagStore) {p : Nat × Nat} (h : p ∈ s.videoTags)
    (videoId tagId : Nat) : p ∈ (upsertVideoTag videoId tagId s).videoTags := by
  unfold upsertVideoTag
  split
  · exact h
  · exact List.mem_append_left _ h

theorem upsertTag_found {s : TagStore} {name : String} {t : TagRow}
    (hf : s.tags.find? (fun u => u.name == name) = some t) :
    upsertTag name s = (t, s) := by
  unfold upsertTag
  rw [hf]

theorem upsertTag_fresh {s : TagStore} {name : String}
    (hf : s.tags.find? (fun u => u.name == name) = none) :
    upsertTag name s = (⟨s.nextId, name⟩,
      { s with tags := s.tags ++ [⟨s.nextId, name⟩], nextId := s.nextId + 1 }) := by
  unfold upsertTag
  rw [hf]

theorem saveTag_of_containsLink {s : TagStore} {videoId : Nat} {tagName : String}
    (h : containsLink s videoId (strToLower tagName)) :
    saveTag videoId tagName s = s := by
  unfold containsLink at h
  cases hf : s.tags.find? (fun t => t.name == strToLower tagName) with
  | none =>
    rw [hf] at h
    exact h.elim
  | some t =>
    rw [hf] at h
    have h2 : (videoId, t.tid) ∈ s.videoTags := h
    unfold saveTag
    rw [upsertTag_found hf]
    show upsertVideoTag videoId t.tid s = s
    unfold upsertVideoTag
    rw [if_pos h2]

theorem saveTag_containsLink (s : TagStore) (videoId : Nat) (tagName : String) :
    containsLink (saveTag videoId tagName s) videoId (strToLower tagName) := by
  unfold saveTag
  cases hf : s.tags.find? (fun t => t.name == strToLower tagName) with
  | some t =>
    rw [upsertTag_found hf]
    show containsLink (upsertVideoTag videoId t.tid s) videoId (strToLower tagName)
    unfold containsLink
    rw [upsertVideoTag_tags, hf]
    exact upsertVideoTag_mem videoId t.tid s
  | none =>
    rw [upsertTag_fresh hf]
    show containsLink (upsertVideoTag videoId s.nextId
      { s with
          tags := s.tags ++ [⟨s.nextId, strToLower tagName⟩],
          nextId := s.nextId + 1 }) videoId (strToLower tagName)
    have hfind : ((s.tags ++ [(⟨s.nextId, strToLower tagName⟩ : TagRow)]).find?
        (fun t => t.name == strToLower tagName)) =
        some ⟨s.nextId, strToLower tagName⟩ := by
      rw [find?_append_none hf]
      simp
    unfold containsLink
    rw [upsertVideoTag_tags]
    simp only [hfind]
    exact upsertVideoTag_mem videoId s.nextId _

theorem saveTag_preserves_containsLink {s : TagStore} {videoId : Nat} {lname : String}
    (h : containsLink s videoId lname) (v2 : Nat) (n2 : String) :
    containsLink (saveTag v2 n2 s) videoId lname := by
  unfold containsLink at h
  cases hf : s.tags.find? (fun t => t.name == lname) with
  | none =>
    rw [hf] at h
    exact h.elim
  | some t =>
    rw [hf] at h
    have h2 : (videoId, t.tid) ∈ s.videoTags := h
    unfold saveTag
    cases hf2 : s.tags.find? (fun u => u.name == strToLower n2) with
    | some u =>
      rw [upsertTag_found hf2]
      show containsLink (upsertVideoTag v2 u.tid s) videoId lname
      unfold containsLink
      rw [upsertVideoTag_tags, hf]
      exact upsertVideoTag_mem_mono s h2 v2 u.tid
    | none =>
      rw [upsertTag_fresh hf2]
      show containsLink (upsertVideoTag v2 s.nextId
        { s with
            tags := s.tags ++ [⟨s.nextId, strToLower n2⟩],
            nextId := s.nextId + 1 }) videoId lname
      have hfind : ((s.tags ++ [(⟨s.nextId, strToLower n2⟩ : TagRow)]).find?
          (fun t => t.name == lname)) = some t :=
        find?_append_some hf _
      unfold containsLink
      rw [upsertVideoTag_tags]
      simp only [hfind]
      exact upsertVideoTag_mem_mono
        { s with
            tags := s.tags ++ [⟨s.nextId, strToLower n2⟩],
            nextId := s.nextId + 1 } h2 v2 s.nextId

theorem saveTags_preserves_containsLink {videoId : Nat} {lname : String} :
    ∀ (ts : List String) (s : TagStore), containsLink s videoId lname →
      containsLink (saveTags videoId ts s) videoId lname := by
  intro ts
  induction ts with
  | nil => intro s h; exact h
  | cons t ts ih =>
    intro s h
    exact ih _ (saveTag_preserves_containsLink h videoId t)

theorem saveTags_establishes {videoId : Nat} :
    ∀ (ts : List String) (s : TagStore) (n : String), n ∈ ts →
      containsLink (saveTags videoId ts s) videoId (strToLower n) := by
  intro ts
  induction ts with
  | nil => intro s n h; simp at h
  | cons t ts ih =>
    intro s n h
    rcases List.mem_cons.mp h with h | h
    · subst h
      exact saveTags_preserves_containsLink ts _ (saveTag_containsLink s videoId n)
    · exact ih _ n h

theorem saveTags_of_all_contained {videoId : Nat} :
    ∀ (ts : List String) (s : TagStore),
      (∀ n ∈ ts, containsLink s videoId (strToLower n)) →
      saveTags videoId ts s = s := by
  intro ts
  induction ts with
  | nil => intro s _; rfl
  | cons t ts ih =>
    intro s h
    show saveTags videoId ts (saveTag videoId t s) = s
    rw [saveTag_of_containsLink (h t (List.mem_cons_self _ _))]
    exact ih s (fun n hn => h n (List.mem_cons_of_mem _ hn))

theorem upsertVideoTag_nodup (s : TagStore) (h : s.videoTags.Nodup)
    (videoId tagId : Nat) : (upsertVideoTag videoId tagId s).videoTags.Nodup := by
  unfold upsertVideoTag
  split
  · exact h
  · rename_i hmem
    show (s.videoTags ++ [(videoId, tagId)]).Nodup
    rw [List.nodup_append]
    refine ⟨h, List.nodup_singleton _, ?_⟩
    intro a ha hb
    simp only [List.mem_singleton] at hb
    subst hb
    exact hmem ha

theorem namesNodup_preserved (s : TagStore) (videoId : Nat) (tagName : String)
    (h : (s.tags.map (fun t => t.name)).Nodup) :
    ((saveTag videoId tagName s).tags.map (fun t => t.name)).Nodup := by
  unfold saveTag
  cases hf : s.tags.find? (fun t => t.name == strToLower tagName) with
  | some t =>
    rw [upsertTag_found hf]
    show ((upsertVideoTag videoId t.tid s).tags.map (fun t => t.name)).Nodup
    rw [upsertVideoTag_tags]
    exact h
  | none =>
    rw [upsertTag_fresh hf]
    show ((upsertVideoTag videoId s.nextId
      { s with
          tags := s.tags ++ [⟨s.nextId, strToLower tagName⟩],
          nextId := s.nextId + 1 }).tags.map (fun t => t.name)).Nodup
    rw [upsertVideoTag_tags]
    show (((s.tags ++ [(⟨s.nextId, strToLower tagName⟩ : TagRow)])).map
      (fun t => t.name)).Nodup
    rw [List.map_append, List.nodup_append]
    refine ⟨h, by simp, ?_⟩
    intro a ha hb
    simp only [List.map_cons, List.map_nil, List.mem_singleton] at hb
    obtain ⟨u, hu, hun⟩ := List.mem_map.mp ha
    have hne := List.find?_eq_none.mp hf u hu
    simp only [beq_iff_eq] at hne
    exact hne (hun.trans hb)

theorem pairsNodup_preserved (s : TagStore) (videoId : Nat) (tagName : String)
    (h : s.videoTags.Nodup) : (saveTag videoId tagName s).videoTags.Nodup := by
  unfold saveTag
  cases hf : s.tags.find? (fun t => t.name == strToLower tagName) with
  | some t =>
    rw [upsertTag_found hf]
    show ((upsertVideoTag videoId t.tid s).videoTags).Nodup
    exact upsertVideoTag_nodup s h videoId t.tid
  | none =>
    rw [upsertTag_fresh hf]
    show ((upsertVideoTag videoId s.nextId
      { s with
          tags := s.tags ++ [⟨s.nextId, strToLower tagName⟩],
          nextId := s.nextId + 1 }).videoTags).Nodup
    exact upsertVideoTag_nodup
      { s with
          tags := s.tags ++ [⟨s.nextId, strToLower tagName⟩],
          nextId := s.nextId + 1 } h videoId s.nextId

theorem saveTags_namesNodup (videoId : Nat) :
    ∀ (ts : List String) (s : TagStore),
      (s.tags.map (fun t => t.name)).Nodup →
      ((saveTags videoId ts s).tags.map (fun t => t.name)).Nodup := by
  intro ts
  induction ts with
  | nil => intro s h; exact h
  | cons t ts ih =>
    intro s h
    exact ih _ (namesNodup_preserved s videoId t h)

theorem saveTags_pairsNodup (videoId : Nat) :
    ∀ (ts : List String) (s : TagStore),
      s.videoTags.Nodup → (saveTags videoId ts s).videoTags.Nodup := by
  intro ts
  induction ts with
  | nil => intro s h; exact h
  | cons t ts ih =>
    intro s h
    exact ih _ (pairsNodup_preserved s videoId t h)

/-- C9: the tag persistence of ingestVideo is idempotent and preserves
uniqueness: saving a derived tag list never breaks the uniqueness of
canonical tag names or of (video, tag) join pairs, repeating the whole
save is a no-op, and two spellings of the same tag differing only in case
collapse into one upsert within a run. -/
theorem saveTags_idempotent (videoId : Nat) (ts : List String) (s : TagStore)
    (n1 n2 : String)
    (hnames : (s.tags.map (fun t => t.name)).Nodup)
    (hpairs : s.videoTags.Nodup)
    (hcase : strToLower n1 = strToLower n2) :
    ((saveTags videoId ts s).tags.map (fun t => t.name)).Nodup ∧
    (saveTags videoId ts s).videoTags.Nodup ∧
    saveTags videoId ts (saveTags videoId ts s) = saveTags videoId ts s ∧
    saveTag videoId n1 (saveTag videoId n2 s) = saveTag videoId n2 s := by
  refine ⟨saveTags_namesNodup videoId ts s hnames,
    saveTags_pairsNodup videoId ts s hpairs, ?_, ?_⟩
  · exact saveTags_of_all_contained ts _ (fun n hn => saveTags_establishes ts s n hn)
  · apply saveTag_of_containsLink
    rw [hcase]
    exact saveTag_containsLink s videoId n2

/-- Witness for C9 on a concrete store and tag list, including a repeated
tag with different casing. -/
theorem saveTags_idempotent_witness :
    ((saveTags 7 ["Governance", "dev"] ⟨[], [], 0⟩).tags.map
        (fun t => t.name)).Nodup ∧
    (saveTags 7 ["Governance", "dev"] ⟨[], [], 0⟩).videoTags.Nodup ∧
    saveTags 7 ["Governance", "dev"] (saveTags 7 ["Governance", "dev"] ⟨[], [], 0⟩) =
      saveTags 7 ["Governance", "dev"] ⟨[], [], 0⟩ ∧
    saveTag 7 "GOVERNANCE" (saveTag 7 "governance" ⟨[], [], 0⟩) =
      saveTag 7 "governance" ⟨[], [], 0⟩ :=
  saveTags_idempotent 7 ["Governance", "dev"] ⟨[], [], 0⟩ "GOVERNANCE" "governance"
    (by decide) (by decide) (by decide)

end HoskSaid
